import Mathlib

set_option maxHeartbeats 1000000

/-!
Shallow embedding of the gh-licenses scanner (main.go, final revision).

Go maps with License keys are modelled as association lists with
no duplicate keys; a Go nil slice and an empty slice are both modelled
as the empty list, which is observationally faithful here because the
only place the program distinguishes them, the check
`merged[key] == nil` in mergeMaps, takes the same branch-result either
way (assigning val coincides with appendUnique on an empty current
list).  A possibly-nil Go map is an Option over the association list.
Strings are Lean strings (Go byte indexing only ever happens at ASCII
offsets in this program, so char indexing coincides).
-/

/-- The License record (main.go): key, name, url. -/
structure License where
  key : String
  name : String
  url : String
  deriving DecidableEq

/-- The zero value License\x7b\x7d that Go returns on a failed lookup. -/
def License.zero : License := { key := "", name := "", url := "" }

abbrev RepoList := List String

/-- Content of a non-nil Go map from License to repo slices. -/
abbrev GoMap := List (License × RepoList)

/-- A possibly-nil Go map (none models the nil map). -/
abbrev LicenseIndex := Option GoMap

/-- Go map read m[k] returning the stored slice, if the key is present. -/
def mapFind : GoMap → License → Option RepoList
  | [], _ => none
  | (k, v) :: rest, L => if k = L then some v else mapFind rest L

/-- Go map read m[k] with the nil slice (modelled []) for a missing key. -/
def mapGet (m : GoMap) (L : License) : RepoList := (mapFind m L).getD []

/-- Whether the key is present in the map. -/
def mapHasKey (m : GoMap) (L : License) : Bool := (mapFind m L).isSome

/-- Go map write m[k] = v. -/
def mapSet : GoMap → License → RepoList → GoMap
  | [], L, v => [(L, v)]
  | (k, w) :: rest, L, v => if k = L then (L, v) :: rest else (k, w) :: mapSet rest L v

/-- Go maps never hold two entries for one key. -/
def NodupKeys (m : GoMap) : Prop := (m.map Prod.fst).Nodup

/-- appendUnique (main.go): copies currentStrings, then appends each of
newStrings that does not already occur in currentStrings. -/
def appendUnique (currentStrings newStrings : RepoList) : RepoList :=
  newStrings.foldl
    (fun newArrStrings newString =>
      if newString ∈ currentStrings then newArrStrings else newArrStrings ++ [newString])
    currentStrings

/-- One iteration of the map2 loop of mergeMaps: if merged[key] == nil
assign val, otherwise merged[key] = appendUnique(merged[key], map2[key]...). -/
def mergeStep (merged : GoMap) (kv : License × RepoList) : GoMap :=
  if (mapGet merged kv.1).isEmpty then mapSet merged kv.1 kv.2
  else mapSet merged kv.1 (appendUnique (mapGet merged kv.1) kv.2)

/-- mergeMaps (main.go): nil cases first, then copy map1 and fold the
map2 loop over map2's entries. -/
def mergeMaps : LicenseIndex → LicenseIndex → LicenseIndex
  | none, none => some []
  | none, some map2 => some map2
  | some map1, none => some map1
  | some map1, some map2 => some (map2.foldl mergeStep map1)

/-- The empty index produced by make(map[License][]string). -/
def emptyIndex : LicenseIndex := some []

/-- Lookup through a possibly-nil map (a nil map has no keys). -/
def idxFind : LicenseIndex → License → Option RepoList
  | none, _ => none
  | some m, L => mapFind m L

/-- Read through a possibly-nil map, with [] for a missing key. -/
def idxGet (x : LicenseIndex) (L : License) : RepoList := (idxFind x L).getD []

/-- Key presence through a possibly-nil map. -/
def idxHasKey (x : LicenseIndex) (L : License) : Bool := (idxFind x L).isSome

/-- Well-formedness of a possibly-nil map: no duplicate keys. -/
def IdxNodupKeys : LicenseIndex → Prop
  | none => True
  | some m => NodupKeys m

/-- Two indexes have the same content as a license-to-repository-set
mapping: the same keys, and set-equal repo lists at every license. -/
def contentEquiv (x y : LicenseIndex) : Prop :=
  ∀ L, idxHasKey x L = idxHasKey y L ∧ ∀ s, s ∈ idxGet x L ↔ s ∈ idxGet y L

/-- The whitespace class of the Go regular-expression escape in the
pattern: tab, newline, form feed, carriage return, space. -/
def isGoSpace (c : Char) : Bool :=
  c == '\t' || c == '\n' || c == '\x0c' || c == '\r' || c == ' '

/-- The literal part of the pattern compiled by getGithubRepos. -/
def githubLit : List Char := "github.com".data

/-- A match attempt of the pattern at the start of cs: the literal
followed by a maximal nonempty run of non-whitespace characters.
Returns the matched text and the remainder after the match. -/
def matchAt (cs : List Char) : Option (List Char × List Char) :=
  if List.isPrefixOf githubLit cs then
    let afterLit := cs.drop githubLit.length
    let run := afterLit.takeWhile (fun c => !isGoSpace c)
    if run.isEmpty then none
    else some (githubLit ++ run, afterLit.dropWhile (fun c => !isGoSpace c))
  else none

/-- Scan for all non-overlapping leftmost matches, with fuel for
structural recursion; fuel at least the text length is sufficient. -/
def findAllF : Nat → List Char → List (List Char)
  | 0, _ => []
  | _, [] => []
  | fuel + 1, c :: cs =>
    match matchAt (c :: cs) with
    | some (m, rest) => m :: findAllF fuel rest
    | none => findAllF fuel cs

/-- FindAllString of the compiled pattern over the whole text. -/
def findAll (l : List Char) : List (List Char) := findAllF l.length l

/-- getGithubRepos (main.go): all non-overlapping matches of the
pattern in the line. The pattern is a fixed valid expression, so the
compile-error branch of the source is dead and the result is total. -/
def getGithubRepos (text : String) : List String :=
  (findAll text.data).map (fun cs => String.mk cs)

/-- stripNewline (main.go): drops one trailing newline if present. -/
def stripNewline (text : String) : String :=
  if text.data.getLast? = some '\n' then String.mk text.data.dropLast else text

/-- A position in the text where the pattern can match: the literal
followed by at least one non-whitespace character. -/
def SpecOccur (s : List Char) : Prop :=
  ∃ i c rest, s.drop i = githubLit ++ c :: rest ∧ isGoSpace c = false

/-- The pattern occurs at this position of the text: the literal,
followed by at least one non-whitespace character. -/
def OccursAt (s : List Char) (q : Nat) : Prop :=
  ∃ c rest, s.drop q = githubLit ++ c :: rest ∧ isGoSpace c = false

/-- The length of the reference substring the specification describes
at the start of this suffix: when the suffix begins with the literal
continued by at least one non-whitespace character, the literal plus
the whole non-whitespace continuation; otherwise none. -/
def specMatchLen (t : List Char) : Option Nat :=
  if List.isPrefixOf githubLit t then
    let runLen := ((t.drop githubLit.length).takeWhile (fun c => !isGoSpace c)).length
    if runLen = 0 then none else some (githubLit.length + runLen)
  else none

/-- Position-level description of the extraction the specification
states: walk the positions of the text left to right; where a
reference substring begins, report its start and length and continue
right after it (matches do not overlap), otherwise move one position
on. Fuel at least the text length is sufficient. -/
def scanPos : Nat → List Char → Nat → List (Nat × Nat)
  | 0, _, _ => []
  | fuel + 1, s, p =>
    match specMatchLen (s.drop p) with
    | some len => (p, len) :: scanPos fuel s (p + len)
    | none => if p < s.length then scanPos fuel s (p + 1) else []

/-- The remote lookup as a black box: either a License record or an
error (in which case getGithubLicense returns the zero License). -/
def Resolver : Type := String → Except String License

/-- Diagnostic lines the program prints on recoverable failures. -/
inductive Log where
  | statErr (path : String)
  | readDirErr (path : String)
  | openErr (path : String)
  | lookupErr (msg : String)
  deriving DecidableEq

/-- The body of the per-repo loop of the file scanner: resolve the
repo; on a lookup failure log the error and use the zero License; in
every case append the repo to the slice stored under the obtained
license. -/
def scanRepoStep (resolve : Resolver) (acc2 : List Log × GoMap) (repo : String) :
    List Log × GoMap :=
  match resolve repo with
  | Except.ok license =>
    (acc2.1, mapSet acc2.2 license (mapGet acc2.2 license ++ [repo]))
  | Except.error e =>
    (acc2.1 ++ [Log.lookupErr e],
      mapSet acc2.2 License.zero (mapGet acc2.2 License.zero ++ [repo]))

/-- The body of the scanner loop: strip the newline, extract the repos
and fold the per-repo step over them. -/
def scanLineStep (resolve : Resolver) (acc : List Log × GoMap) (rawLine : String) :
    List Log × GoMap :=
  (getGithubRepos (stripNewline rawLine)).foldl (scanRepoStep resolve) acc

/-- getLicensesForFile / getLicensesFromFile (main.go): contents is the
line list of the opened file, or none when os.Open fails (in which case
the scanner reads nothing and the result map stays empty). -/
def getLicensesFromFile (resolve : Resolver) (path : String)
    (contents : Option (List String)) : List Log × GoMap :=
  let openLog : List Log := match contents with
    | none => [Log.openErr path]
    | some _ => []
  let lines := contents.getD []
  let scanned := lines.foldl (scanLineStep resolve) ([], [])
  (openLog ++ scanned.1, scanned.2)

/-- The filesystem as seen by the walker: a stat failure, a file whose
open either fails or yields lines, or a directory whose listing either
fails or yields named children. -/
inductive FSEntry where
  | statError
  | file (contents : Option (List String))
  | dir (children : Option (List (String × FSEntry)))

/-- filepath.Join for the simple names the walker builds. -/
def filepathJoin (dir name : String) : String := dir ++ "/" ++ name

mutual

/-- getLicenses (main.go): stat the path; on failure log and return the
nil index; otherwise delegate to the directory or file scanner and
merge the result into the local nil index. -/
def getLicenses (resolve : Resolver) (path : String) : FSEntry → List Log × LicenseIndex
  | FSEntry.statError => ([Log.statErr path], none)
  | FSEntry.file contents =>
    let scanned := getLicensesFromFile resolve path contents
    (scanned.1, mergeMaps none (some scanned.2))
  | FSEntry.dir children =>
    let scanned := getLicensesFromDir resolve path children
    (scanned.1, mergeMaps none scanned.2)

/-- getLicensesFromDir (main.go): on a listing failure log and return
the nil index; otherwise walk the children, folding mergeMaps over a
local nil index. -/
def getLicensesFromDir (resolve : Resolver) (path : String) :
    Option (List (String × FSEntry)) → List Log × LicenseIndex
  | none => ([Log.readDirErr path], none)
  | some children => walkChildren resolve path children none

/-- The loop body of getLicensesFromDir over the listed children. -/
def walkChildren (resolve : Resolver) (path : String) :
    List (String × FSEntry) → LicenseIndex → List Log × LicenseIndex
  | [], acc => ([], acc)
  | child :: rest, acc =>
    let one := getLicenses resolve (filepathJoin path child.1) child.2
    let more := walkChildren resolve path rest (mergeMaps acc one.2)
    (one.1 ++ more.1, more.2)

end

/-- The body of the loop of main: merge one argument's index in. -/
def mainStep (resolve : Resolver) (licenses : LicenseIndex) (arg : String × FSEntry) :
    LicenseIndex :=
  mergeMaps licenses (getLicenses resolve arg.1 arg.2).2

/-- The loop of main (main.go): fold mergeMaps over the per-argument
indexes, starting from the declared nil index. -/
def mainLoop (resolve : Resolver) (args : List (String × FSEntry)) : LicenseIndex :=
  args.foldl (mainStep resolve) none

/-- The remote endpoint base URL constant. -/
def githubAPIURL : String := "https://api.github.com"

/-- The single outbound request getGithubLicense builds. -/
structure HTTPRequest where
  method : String
  url : String
  authHeader : Option String
  deriving DecidableEq

/-- The request built by getGithubLicense (main.go): ownerProj is the
text after the first eleven characters of the reference, the URL is the
base followed by /repos/ and ownerProj, and a nonempty token from the
environment is attached as an authorization header. -/
def getGithubLicenseRequest (authToken : String) (repo : String) : HTTPRequest :=
  let ownerProj : String := String.mk (repo.data.drop "github.com/".length)
  { method := "GET"
    url := githubAPIURL ++ "/repos/" ++ ownerProj
    authHeader := if authToken ≠ "" then some ("token " ++ authToken) else none }

/-- getGithubLicense (main.go), with the transport and body parse as a
black box: the list records every request issued during the call. On an
error the zero License is returned together with the error. -/
def getGithubLicense (doRequest : HTTPRequest → Except String License)
    (authToken repo : String) : List HTTPRequest × (License × Option String) :=
  let req := getGithubLicenseRequest authToken repo
  (([req] : List HTTPRequest),
    match doRequest req with
    | Except.ok license => (license, none)
    | Except.error e => (License.zero, some e))

/-- The Go guarantee that a slice expression s[n:] is within bounds. -/
def goSliceFromInBounds (s : String) (n : Nat) : Prop := n ≤ s.length

/-- Heap of allocated Go maps, for observing mutation: a reference is
an index into the allocation list. -/
abbrev MapHeap := List GoMap

/-- Read a map out of the heap. -/
def heapGet (h : MapHeap) (r : Nat) : GoMap := h.getD r []

/-- Overwrite one allocated map. -/
def heapSet (h : MapHeap) (r : Nat) (m : GoMap) : MapHeap := h.set r m

/-- Allocate a fresh map, returning its reference. -/
def heapAlloc (h : MapHeap) (m : GoMap) : MapHeap × Nat := (h ++ [m], h.length)

/-- One step of the copy loop of mergeMaps: merged[key] = val. -/
def copyStep (rm : Nat) (hh : MapHeap) (kv : License × RepoList) : MapHeap :=
  heapSet hh rm (mapSet (heapGet hh rm) kv.1 kv.2)

/-- One step of the map2 loop of mergeMaps, writing only to merged. -/
def mergeStepRef (rm : Nat) (hh : MapHeap) (kv : License × RepoList) : MapHeap :=
  if (mapGet (heapGet hh rm) kv.1).isEmpty then
    heapSet hh rm (mapSet (heapGet hh rm) kv.1 kv.2)
  else
    heapSet hh rm (mapSet (heapGet hh rm) kv.1 (appendUnique (mapGet (heapGet hh rm) kv.1) kv.2))

/-- mergeMaps against the heap: nil arguments are returned as-is, and
otherwise a fresh map is allocated, map1 is copied into it, and the
map2 loop updates it in place. Slice values are immutable list values
because appendUnique always builds its result in a fresh slice. -/
def mergeMapsRef (h : MapHeap) : Option Nat → Option Nat → MapHeap × Option Nat
  | none, none =>
    let alloc := heapAlloc h []
    (alloc.1, some alloc.2)
  | none, some r2 => (h, some r2)
  | some r1, none => (h, some r1)
  | some r1, some r2 =>
    let alloc := heapAlloc h []
    let rm := alloc.2
    let h1 := alloc.1
    let h2 := (heapGet h1 r1).foldl (copyStep rm) h1
    let h3 := (heapGet h2 r2).foldl (mergeStepRef rm) h2
    (h3, some rm)

/-- A lookup oracle that always succeeds with one fixed license. -/
def okResolver : Resolver :=
  fun _ => Except.ok { key := "mit", name := "MIT License", url := "u" }

/-- A lookup oracle that always fails, as on a network error. -/
def badResolver : Resolver := fun _ => Except.error "network unreachable"

/-- The license record the sample resolver returns. -/
def mitL : License := { key := "mit", name := "MIT License", url := "u" }

/-- Concrete one-entry index used to instantiate general theorems. -/
def sampleMapA : GoMap := [(mitL, ["github.com/a"])]

/-- Concrete one-entry index used to instantiate general theorems. -/
def sampleMapB : GoMap := [(mitL, ["github.com/b"])]

/-- Concrete index whose list shares github.com/x with dupMapB. -/
def dupMapA : GoMap := [(mitL, ["github.com/x"])]

/-- Concrete index whose list shares github.com/x with dupMapA. -/
def dupMapB : GoMap := [(mitL, ["github.com/y", "github.com/x"])]

/-- C4: the absent (nil) index is neutral for mergeMaps: merging two
absent indexes yields the empty index, and merging any index with the
absent one on either side returns it unchanged. -/
theorem c4_mergeMaps_absent_neutral :
    mergeMaps none none = emptyIndex
      ∧ ∀ m : GoMap, mergeMaps none (some m) = some m ∧ mergeMaps (some m) none = some m := by
  exact ⟨rfl, fun m => ⟨rfl, rfl⟩⟩

theorem appendUnique_eq_filter (xs ys : RepoList) :
    appendUnique xs ys = xs ++ ys.filter (fun s => !(decide (s ∈ xs))) := by
  suffices h : ∀ (ys acc : RepoList),
      ys.foldl (fun a s => if s ∈ xs then a else a ++ [s]) acc
        = acc ++ ys.filter (fun s => !(decide (s ∈ xs))) by
    exact h ys xs
  intro ys
  induction ys with
  | nil => intro acc; simp
  | cons y rest ih =>
    intro acc
    by_cases hy : y ∈ xs
    · have hd : (!decide (y ∈ xs)) = false := by simpa using hy
      simp [List.foldl_cons, if_pos hy, ih, List.filter_cons, hd]
    · have hd : (!decide (y ∈ xs)) = true := by simpa using hy
      simp [List.foldl_cons, if_neg hy, ih, List.filter_cons, hd]

theorem mem_appendUnique (xs ys : RepoList) (s : String) :
    s ∈ appendUnique xs ys ↔ s ∈ xs ∨ s ∈ ys := by
  rw [appendUnique_eq_filter]
  simp only [List.mem_append, List.mem_filter, Bool.not_eq_eq_eq_not, Bool.not_true,
    decide_eq_false_iff_not]
  tauto

theorem nodup_appendUnique (xs ys : RepoList) (hx : xs.Nodup) (hy : ys.Nodup) :
    (appendUnique xs ys).Nodup := by
  rw [appendUnique_eq_filter]
  refine List.Nodup.append hx (hy.filter _) ?_
  intro a ha hmem
  rw [List.mem_filter] at hmem
  simp only [Bool.not_eq_eq_eq_not, Bool.not_true, decide_eq_false_iff_not] at hmem
  exact hmem.2 ha

theorem count_appendUnique (xs ys : RepoList) (s : String) (hs : s ∈ xs) :
    (appendUnique xs ys).count s = xs.count s := by
  rw [appendUnique_eq_filter, List.count_append]
  have hzero : (ys.filter (fun t => !(decide (t ∈ xs)))).count s = 0 := by
    rw [List.count_eq_zero]
    intro hmem
    rw [List.mem_filter] at hmem
    simp only [Bool.not_eq_eq_eq_not, Bool.not_true, decide_eq_false_iff_not] at hmem
    exact hmem.2 hs
  omega

theorem mapFind_mapSet (m : GoMap) (L K : License) (v : RepoList) :
    mapFind (mapSet m L v) K = if L = K then some v else mapFind m K := by
  induction m with
  | nil => simp [mapFind, mapSet]
  | cons hd rest ih =>
    obtain ⟨k, w⟩ := hd
    by_cases h1 : k = L
    · subst h1
      by_cases h2 : k = K
      · subst h2
        simp [mapFind, mapSet]
      · simp [mapFind, mapSet, h2]
    · by_cases h2 : k = K
      · subst h2
        have hLK : ¬ L = k := fun h => h1 h.symm
        simp [mapFind, mapSet, h1, hLK]
      · simp [mapFind, mapSet, h1, h2, ih]

theorem mapFind_eq_none_iff (m : GoMap) (K : License) :
    mapFind m K = none ↔ K ∉ m.map Prod.fst := by
  induction m with
  | nil => simp [mapFind]
  | cons hd rest ih =>
    obtain ⟨k, w⟩ := hd
    by_cases h : k = K
    · subst h
      simp [mapFind]
    · simp only [mapFind, if_neg h, ih, List.map_cons, List.mem_cons]
      constructor
      · intro hn hor
        rcases hor with hKk | hmem
        · exact h hKk.symm
        · exact hn hmem
      · intro hn hmem
        exact hn (Or.inr hmem)

theorem mapHasKey_iff_mem (m : GoMap) (K : License) :
    mapHasKey m K = true ↔ K ∈ m.map Prod.fst := by
  rw [mapHasKey, Option.isSome_iff_ne_none, ne_eq, not_iff_comm, mapFind_eq_none_iff]

theorem mem_keys_mapSet (m : GoMap) (L K : License) (v : RepoList) :
    K ∈ (mapSet m L v).map Prod.fst ↔ K = L ∨ K ∈ m.map Prod.fst := by
  induction m with
  | nil => simp [mapSet, eq_comm]
  | cons hd rest ih =>
    obtain ⟨k, w⟩ := hd
    by_cases h : k = L
    · subst h
      simp [mapSet, eq_comm]
    · simp only [mapSet, if_neg h, List.map_cons, List.mem_cons, ih]
      tauto

theorem nodupKeys_mapSet (m : GoMap) (L : License) (v : RepoList) (hm : NodupKeys m) :
    NodupKeys (mapSet m L v) := by
  induction m with
  | nil => simp [mapSet, NodupKeys]
  | cons hd rest ih =>
    obtain ⟨k, w⟩ := hd
    simp only [NodupKeys, List.map_cons, List.nodup_cons] at hm
    by_cases h : k = L
    · subst h
      have hset : mapSet ((k, w) :: rest) k v = (k, v) :: rest := by
        simp [mapSet]
      rw [hset]
      simp only [NodupKeys, List.map_cons, List.nodup_cons]
      exact hm
    · simp only [mapSet, if_neg h, NodupKeys, List.map_cons, List.nodup_cons]
      refine ⟨?_, ih hm.2⟩
      rw [mem_keys_mapSet]
      rintro (hkL | hk)
      · exact h hkL
      · exact hm.1 hk

theorem mergeStep_find_self (m : GoMap) (kv : License × RepoList) :
    mapFind (mergeStep m kv) kv.1
      = some (if (mapGet m kv.1).isEmpty then kv.2 else appendUnique (mapGet m kv.1) kv.2) := by
  by_cases h : (mapGet m kv.1).isEmpty
  · simp [mergeStep, h, mapFind_mapSet]
  · simp [mergeStep, h, mapFind_mapSet]

theorem mergeStep_find_ne (m : GoMap) (kv : License × RepoList) (K : License)
    (h : kv.1 ≠ K) : mapFind (mergeStep m kv) K = mapFind m K := by
  by_cases hE : (mapGet m kv.1).isEmpty
  · simp [mergeStep, hE, mapFind_mapSet, h]
  · simp [mergeStep, hE, mapFind_mapSet, h]

theorem nodupKeys_mergeStep (m : GoMap) (kv : License × RepoList) (hm : NodupKeys m) :
    NodupKeys (mergeStep m kv) := by
  by_cases hE : (mapGet m kv.1).isEmpty
  · simpa [mergeStep, hE] using nodupKeys_mapSet m kv.1 kv.2 hm
  · simpa [mergeStep, hE] using nodupKeys_mapSet m kv.1 _ hm

theorem nodupKeys_cons (k : License) (v : RepoList) (rest : GoMap) :
    NodupKeys ((k, v) :: rest) ↔ k ∉ rest.map Prod.fst ∧ NodupKeys rest := by
  simp [NodupKeys]

theorem mergeStep_get_ne (m : GoMap) (kv : License × RepoList) (K : License)
    (h : kv.1 ≠ K) : mapGet (mergeStep m kv) K = mapGet m K := by
  rw [mapGet, mergeStep_find_ne m kv K h, mapGet]

theorem mergeFold_find_none (map2 : GoMap) (hnd : NodupKeys map2) :
    ∀ (map1 : GoMap) (K : License), mapFind map2 K = none →
      mapFind (map2.foldl mergeStep map1) K = mapFind map1 K := by
  induction map2 with
  | nil => intro map1 K _; rfl
  | cons kv rest ih =>
    intro map1 K hfind
    obtain ⟨k, v⟩ := kv
    rw [nodupKeys_cons] at hnd
    have hk : ¬ k = K := by
      intro h
      simp [mapFind, h] at hfind
    have hrest : mapFind rest K = none := by
      simpa [mapFind, hk] using hfind
    rw [List.foldl_cons, ih hnd.2 (mergeStep map1 (k, v)) K hrest,
      mergeStep_find_ne map1 (k, v) K hk]

theorem mergeFold_find_some (map2 : GoMap) (hnd : NodupKeys map2) :
    ∀ (map1 : GoMap) (K : License) (vB : RepoList), mapFind map2 K = some vB →
      mapFind (map2.foldl mergeStep map1) K
        = some (if (mapGet map1 K).isEmpty then vB else appendUnique (mapGet map1 K) vB) := by
  induction map2 with
  | nil => intro map1 K vB hfind; simp [mapFind] at hfind
  | cons kv rest ih =>
    intro map1 K vB hfind
    obtain ⟨k, v⟩ := kv
    rw [nodupKeys_cons] at hnd
    by_cases hk : k = K
    · have hval : mapFind ((k, v) :: rest) K = some v := by
        simp [mapFind, hk]
      have hvB : vB = v := by
        rw [hval] at hfind
        exact (Option.some.inj hfind).symm
      have hKrest : mapFind rest K = none := by
        rw [mapFind_eq_none_iff, ← hk]
        exact hnd.1
      rw [List.foldl_cons, mergeFold_find_none rest hnd.2 (mergeStep map1 (k, v)) K hKrest,
        hvB, ← hk]
      exact mergeStep_find_self map1 (k, v)
    · have hrest : mapFind rest K = some vB := by
        simpa [mapFind, hk] using hfind
      rw [List.foldl_cons, ih hnd.2 (mergeStep map1 (k, v)) K vB hrest,
        mergeStep_get_ne map1 (k, v) K hk]

theorem mergeFold_hasKey (map1 map2 : GoMap) (hnd : NodupKeys map2) (K : License) :
    mapHasKey (map2.foldl mergeStep map1) K = (mapHasKey map1 K || mapHasKey map2 K) := by
  cases hfind : mapFind map2 K with
  | none =>
    rw [mapHasKey, mergeFold_find_none map2 hnd map1 K hfind]
    simp [mapHasKey, hfind]
  | some vB =>
    rw [mapHasKey, mergeFold_find_some map2 hnd map1 K vB hfind]
    simp [mapHasKey, hfind]

theorem mergeFold_mem (map1 map2 : GoMap) (hnd : NodupKeys map2) (K : License) (s : String) :
    s ∈ mapGet (map2.foldl mergeStep map1) K ↔ s ∈ mapGet map1 K ∨ s ∈ mapGet map2 K := by
  cases hfind : mapFind map2 K with
  | none =>
    have hget2 : mapGet map2 K = [] := by rw [mapGet, hfind]; rfl
    rw [mapGet, mergeFold_find_none map2 hnd map1 K hfind, ← mapGet, hget2]
    simp
  | some vB =>
    have hvB : mapGet map2 K = vB := by rw [mapGet, hfind]; rfl
    rw [mapGet, mergeFold_find_some map2 hnd map1 K vB hfind, Option.getD_some]
    by_cases hE : (mapGet map1 K).isEmpty = true
    · have hnil : mapGet map1 K = [] := by
        cases hg : mapGet map1 K with
        | nil => rfl
        | cons a as => rw [hg] at hE; simp at hE
      rw [if_pos hE, hnil, hvB]
      simp
    · rw [if_neg hE, mem_appendUnique, hvB]

theorem mergeFold_get_nodup (map1 map2 : GoMap) (hnd : NodupKeys map2) (K : License)
    (h1 : (mapGet map1 K).Nodup) (h2 : (mapGet map2 K).Nodup) :
    (mapGet (map2.foldl mergeStep map1) K).Nodup := by
  cases hfind : mapFind map2 K with
  | none =>
    rw [mapGet, mergeFold_find_none map2 hnd map1 K hfind, ← mapGet]
    exact h1
  | some vB =>
    have hvB : mapGet map2 K = vB := by rw [mapGet, hfind]; rfl
    rw [mapGet, mergeFold_find_some map2 hnd map1 K vB hfind, Option.getD_some]
    by_cases hE : (mapGet map1 K).isEmpty = true
    · rw [if_pos hE, ← hvB]
      exact h2
    · rw [if_neg hE]
      exact nodup_appendUnique _ _ h1 (hvB ▸ h2)

theorem mergeFold_get_onlyLeft (map1 map2 : GoMap) (hnd : NodupKeys map2) (K : License)
    (h : mapHasKey map2 K = false) :
    mapGet (map2.foldl mergeStep map1) K = mapGet map1 K := by
  have hfind : mapFind map2 K = none := by
    cases hf : mapFind map2 K with
    | none => rfl
    | some w =>
      rw [mapHasKey, hf] at h
      simp at h
  rw [mapGet, mergeFold_find_none map2 hnd map1 K hfind, ← mapGet]

theorem mergeFold_get_onlyRight (map1 map2 : GoMap) (hnd : NodupKeys map2) (K : License)
    (h : mapHasKey map1 K = false) :
    mapGet (map2.foldl mergeStep map1) K = mapGet map2 K := by
  have hfind1 : mapFind map1 K = none := by
    cases hf : mapFind map1 K with
    | none => rfl
    | some w =>
      rw [mapHasKey, hf] at h
      simp at h
  have hget1 : mapGet map1 K = [] := by rw [mapGet, hfind1]; rfl
  cases hfind : mapFind map2 K with
  | none =>
    have hget2 : mapGet map2 K = [] := by rw [mapGet, hfind]; rfl
    rw [mapGet, mergeFold_find_none map2 hnd map1 K hfind, ← mapGet, hget1, hget2]
  | some vB =>
    have hget2 : mapGet map2 K = vB := by rw [mapGet, hfind]; rfl
    have hE : (mapGet map1 K).isEmpty = true := by rw [hget1]; rfl
    rw [mapGet, mergeFold_find_some map2 hnd map1 K vB hfind, Option.getD_some,
      if_pos hE, hget2]

theorem mergeFold_nodupKeys (map2 : GoMap) :
    ∀ map1 : GoMap, NodupKeys map1 → NodupKeys (map2.foldl mergeStep map1) := by
  induction map2 with
  | nil => intro map1 h; exact h
  | cons kv rest ih =>
    intro map1 h
    rw [List.foldl_cons]
    exact ih (mergeStep map1 kv) (nodupKeys_mergeStep map1 kv h)

theorem idx_merge_hasKey (x y : LicenseIndex) (hy : IdxNodupKeys y) (L : License) :
    idxHasKey (mergeMaps x y) L = (idxHasKey x L || idxHasKey y L) := by
  cases x with
  | none =>
    cases y with
    | none => simp [mergeMaps, idxHasKey, idxFind, mapFind]
    | some b => simp [mergeMaps, idxHasKey, idxFind]
  | some a =>
    cases y with
    | none => simp [mergeMaps, idxHasKey, idxFind]
    | some b =>
      have hb : NodupKeys b := hy
      simpa [mergeMaps, idxHasKey, idxFind, mapHasKey] using
        mergeFold_hasKey a b hb L

theorem idx_merge_mem (x y : LicenseIndex) (hy : IdxNodupKeys y) (L : License) (s : String) :
    s ∈ idxGet (mergeMaps x y) L ↔ s ∈ idxGet x L ∨ s ∈ idxGet y L := by
  cases x with
  | none =>
    cases y with
    | none => simp [mergeMaps, idxGet, idxFind, mapFind]
    | some b => simp [mergeMaps, idxGet, idxFind]
  | some a =>
    cases y with
    | none => simp [mergeMaps, idxGet, idxFind]
    | some b =>
      have hb : NodupKeys b := hy
      simpa [mergeMaps, idxGet, idxFind, mapGet] using
        mergeFold_mem a b hb L s

theorem idx_merge_get_onlyLeft (x y : LicenseIndex) (hy : IdxNodupKeys y) (L : License)
    (h : idxHasKey y L = false) : idxGet (mergeMaps x y) L = idxGet x L := by
  cases x with
  | none =>
    cases y with
    | none => simp [mergeMaps, idxGet, idxFind, mapFind]
    | some b =>
      have hfind : mapFind b L = none := by
        cases hf : mapFind b L with
        | none => rfl
        | some w =>
          rw [idxHasKey, idxFind, hf] at h
          simp at h
      simp [mergeMaps, idxGet, idxFind, hfind]
  | some a =>
    cases y with
    | none => simp [mergeMaps, idxGet, idxFind]
    | some b =>
      have hb : NodupKeys b := hy
      have h2 : mapHasKey b L = false := h
      simpa [mergeMaps, idxGet, idxFind, mapGet] using
        mergeFold_get_onlyLeft a b hb L h2

theorem idx_merge_get_onlyRight (x y : LicenseIndex) (hy : IdxNodupKeys y) (L : License)
    (h : idxHasKey x L = false) : idxGet (mergeMaps x y) L = idxGet y L := by
  cases x with
  | none =>
    cases y with
    | none => simp [mergeMaps, idxGet, idxFind, mapFind]
    | some b => simp [mergeMaps, idxGet, idxFind]
  | some a =>
    cases y with
    | none =>
      have hfind : mapFind a L = none := by
        cases hf : mapFind a L with
        | none => rfl
        | some w =>
          rw [idxHasKey, idxFind, hf] at h
          simp at h
      simp [mergeMaps, idxGet, idxFind, hfind]
    | some b =>
      have hb : NodupKeys b := hy
      have h2 : mapHasKey a L = false := h
      simpa [mergeMaps, idxGet, idxFind, mapGet] using
        mergeFold_get_onlyRight a b hb L h2

theorem idx_merge_get_nodup (x y : LicenseIndex) (hy : IdxNodupKeys y) (L : License)
    (h1 : (idxGet x L).Nodup) (h2 : (idxGet y L).Nodup) :
    (idxGet (mergeMaps x y) L).Nodup := by
  cases x with
  | none =>
    cases y with
    | none => simp [mergeMaps, idxGet, idxFind, mapFind]
    | some b => exact h2
  | some a =>
    cases y with
    | none => exact h1
    | some b =>
      have hb : NodupKeys b := hy
      have g1 : (mapGet a L).Nodup := h1
      have g2 : (mapGet b L).Nodup := h2
      simpa [mergeMaps, idxGet, idxFind, mapGet] using
        mergeFold_get_nodup a b hb L g1 g2

theorem idx_merge_nodupKeys (x y : LicenseIndex) (hx : IdxNodupKeys x) (hy : IdxNodupKeys y) :
    IdxNodupKeys (mergeMaps x y) := by
  cases x with
  | none =>
    cases y with
    | none => simp [mergeMaps, IdxNodupKeys, NodupKeys]
    | some b => exact hy
  | some a =>
    cases y with
    | none => exact hx
    | some b => exact mergeFold_nodupKeys b a hx

/-- C1: merging two non-absent indexes yields an index whose keys are
exactly the union of the two key sets; a license present on one side
only keeps its repository list unchanged; and at every license the
merged list holds exactly the set union of the two input lists and is
duplicate-free, given the inputs are well-formed License Indexes
(association lists with unique keys whose repository collections are
duplicate-free sets, as the data model defines them). -/
theorem c1_mergeMaps_union (a b : GoMap) (ha : NodupKeys a) (hb : NodupKeys b)
    (L : License) (hla : (mapGet a L).Nodup) (hlb : (mapGet b L).Nodup) :
    (idxHasKey (mergeMaps (some a) (some b)) L = (mapHasKey a L || mapHasKey b L))
      ∧ (mapHasKey a L = true → mapHasKey b L = false →
          idxGet (mergeMaps (some a) (some b)) L = mapGet a L)
      ∧ (mapHasKey a L = false → mapHasKey b L = true →
          idxGet (mergeMaps (some a) (some b)) L = mapGet b L)
      ∧ (∀ s, s ∈ idxGet (mergeMaps (some a) (some b)) L ↔ s ∈ mapGet a L ∨ s ∈ mapGet b L)
      ∧ (idxGet (mergeMaps (some a) (some b)) L).Nodup := by
  have hyb : IdxNodupKeys (some b) := hb
  refine ⟨?_, ?_, ?_, ?_, ?_⟩
  · exact idx_merge_hasKey (some a) (some b) hyb L
  · intro _ h2
    exact idx_merge_get_onlyLeft (some a) (some b) hyb L h2
  · intro h1 _
    exact idx_merge_get_onlyRight (some a) (some b) hyb L h1
  · intro s
    exact idx_merge_mem (some a) (some b) hyb L s
  · exact idx_merge_get_nodup (some a) (some b) hyb L hla hlb

/-- Witness instantiating c1_mergeMaps_union on concrete indexes. -/
theorem c1_mergeMaps_union_witness :
    NodupKeys sampleMapA ∧ NodupKeys sampleMapB
      ∧ (mapGet sampleMapA mitL).Nodup ∧ (mapGet sampleMapB mitL).Nodup
      ∧ (∀ s, s ∈ idxGet (mergeMaps (some sampleMapA) (some sampleMapB)) mitL
            ↔ s ∈ mapGet sampleMapA mitL ∨ s ∈ mapGet sampleMapB mitL)
      ∧ (idxGet (mergeMaps (some sampleMapA) (some sampleMapB)) mitL).Nodup := by
  have ha : NodupKeys sampleMapA := by unfold NodupKeys; decide
  have hb : NodupKeys sampleMapB := by unfold NodupKeys; decide
  have hla : (mapGet sampleMapA mitL).Nodup := by decide
  have hlb : (mapGet sampleMapB mitL).Nodup := by decide
  have hmain := c1_mergeMaps_union sampleMapA sampleMapB ha hb mitL hla hlb
  exact ⟨ha, hb, hla, hlb, hmain.2.2.2.1, hmain.2.2.2.2⟩

/-- C5: over well-formed indexes merge is commutative and associative
with respect to the resulting content viewed as a mapping from licenses
to repository sets. -/
theorem c5_mergeMaps_comm_assoc (a b c : LicenseIndex)
    (ha : IdxNodupKeys a) (hb : IdxNodupKeys b) (hc : IdxNodupKeys c) :
    contentEquiv (mergeMaps a b) (mergeMaps b a)
      ∧ contentEquiv (mergeMaps (mergeMaps a b) c) (mergeMaps a (mergeMaps b c)) := by
  constructor
  · intro L
    constructor
    · rw [idx_merge_hasKey a b hb L, idx_merge_hasKey b a ha L, Bool.or_comm]
    · intro s
      rw [idx_merge_mem a b hb L s, idx_merge_mem b a ha L s]
      tauto
  · have hbc : IdxNodupKeys (mergeMaps b c) := idx_merge_nodupKeys b c hb hc
    intro L
    constructor
    · rw [idx_merge_hasKey (mergeMaps a b) c hc L, idx_merge_hasKey a b hb L,
        idx_merge_hasKey a (mergeMaps b c) hbc L, idx_merge_hasKey b c hc L, Bool.or_assoc]
    · intro s
      rw [idx_merge_mem (mergeMaps a b) c hc L s, idx_merge_mem a b hb L s,
        idx_merge_mem a (mergeMaps b c) hbc L s, idx_merge_mem b c hc L s, or_assoc]

/-- Witness instantiating c5_mergeMaps_comm_assoc on concrete indexes. -/
theorem c5_mergeMaps_comm_assoc_witness :
    IdxNodupKeys (some sampleMapA) ∧ IdxNodupKeys (some sampleMapB)
      ∧ IdxNodupKeys emptyIndex
      ∧ contentEquiv (mergeMaps (some sampleMapA) (some sampleMapB))
          (mergeMaps (some sampleMapB) (some sampleMapA)) := by
  have ha : IdxNodupKeys (some sampleMapA) := by unfold IdxNodupKeys NodupKeys; decide
  have hb : IdxNodupKeys (some sampleMapB) := by unfold IdxNodupKeys NodupKeys; decide
  have hc : IdxNodupKeys emptyIndex := by unfold emptyIndex IdxNodupKeys NodupKeys; decide
  exact ⟨ha, hb, hc, (c5_mergeMaps_comm_assoc (some sampleMapA) (some sampleMapB)
    emptyIndex ha hb hc).1⟩

/-- C3 counterexample: the File Scanner does not skip an already-present
reference: a single line holding the same reference twice yields that
reference twice in the stored repository list. -/
theorem c3_scanFile_duplicate :
    (getLicensesFromFile okResolver "deps.txt" (some ["github.com/a/b github.com/a/b"])).2
        = [(mitL, ["github.com/a/b", "github.com/a/b"])]
      ∧ ¬ (mapGet (getLicensesFromFile okResolver "deps.txt"
            (some ["github.com/a/b github.com/a/b"])).2 mitL).Nodup := by
  constructor
  · rfl
  · decide

/-- C3 amended: merging does deduplicate across the two inputs: a
reference present in both inputs' duplicate-free lists for a license
occurs exactly once in the merged list for that license. -/
theorem c3_merge_once (a b : GoMap) (hb : NodupKeys b) (L : License) (r : String)
    (hla : (mapGet a L).Nodup) (hlb : (mapGet b L).Nodup)
    (hra : r ∈ mapGet a L) (hrb : r ∈ mapGet b L) :
    (idxGet (mergeMaps (some a) (some b)) L).count r = 1 := by
  cases hfind : mapFind b L with
  | none =>
    rw [mapGet, hfind] at hrb
    simp at hrb
  | some vB =>
    have hvB : mapGet b L = vB := by rw [mapGet, hfind]; rfl
    have hnot : ¬ ((mapGet a L).isEmpty = true) := by
      cases hg : mapGet a L with
      | nil => rw [hg] at hra; simp at hra
      | cons x xs => simp
    have hidx : idxGet (mergeMaps (some a) (some b)) L = appendUnique (mapGet a L) vB := by
      show mapGet (b.foldl mergeStep a) L = appendUnique (mapGet a L) vB
      rw [mapGet, mergeFold_find_some b hb a L vB hfind, Option.getD_some, if_neg hnot]
    rw [hidx, count_appendUnique (mapGet a L) vB r hra]
    exact List.count_eq_one_of_mem hla hra

/-- Witness instantiating c3_merge_once on concrete indexes. -/
theorem c3_merge_once_witness :
    NodupKeys dupMapB ∧ (mapGet dupMapA mitL).Nodup ∧ (mapGet dupMapB mitL).Nodup
      ∧ "github.com/x" ∈ mapGet dupMapA mitL ∧ "github.com/x" ∈ mapGet dupMapB mitL
      ∧ (idxGet (mergeMaps (some dupMapA) (some dupMapB)) mitL).count "github.com/x" = 1 := by
  have hb : NodupKeys dupMapB := by unfold NodupKeys; decide
  have hla : (mapGet dupMapA mitL).Nodup := by decide
  have hlb : (mapGet dupMapB mitL).Nodup := by decide
  have hra : "github.com/x" ∈ mapGet dupMapA mitL := by decide
  have hrb : "github.com/x" ∈ mapGet dupMapB mitL := by decide
  exact ⟨hb, hla, hlb, hra, hrb,
    c3_merge_once dupMapA dupMapB hb mitL "github.com/x" hla hlb hra hrb⟩

theorem isPrefixOfE : ∀ (xs l : List Char), List.isPrefixOf xs l = true ↔ ∃ t, l = xs ++ t := by
  intro xs
  induction xs with
  | nil =>
    intro l
    simp [List.isPrefixOf]
  | cons x xs ih =>
    intro l
    cases l with
    | nil => simp [List.isPrefixOf]
    | cons y ys =>
      simp only [List.isPrefixOf, Bool.and_eq_true, beq_iff_eq, List.cons_append,
        List.cons.injEq]
      constructor
      · rintro ⟨hxy, hp⟩
        subst hxy
        obtain ⟨t, ht⟩ := (ih ys).mp hp
        exact ⟨t, rfl, ht⟩
      · rintro ⟨t, hy, hys⟩
        exact ⟨hy.symm, (ih ys).mpr ⟨t, hys⟩⟩

theorem githubLit_length : githubLit.length = 10 := rfl

theorem matchAt_unfold (cs : List Char) : matchAt cs =
    if List.isPrefixOf githubLit cs then
      (if ((cs.drop githubLit.length).takeWhile (fun c => !isGoSpace c)).isEmpty then none
        else some (githubLit ++ (cs.drop githubLit.length).takeWhile (fun c => !isGoSpace c),
          (cs.drop githubLit.length).dropWhile (fun c => !isGoSpace c)))
    else none := rfl

theorem matchAt_eq_some (cs m rest : List Char) (h : matchAt cs = some (m, rest)) :
    ∃ t, cs = githubLit ++ t
      ∧ m = githubLit ++ t.takeWhile (fun c => !isGoSpace c)
      ∧ rest = t.dropWhile (fun c => !isGoSpace c)
      ∧ (t.takeWhile (fun c => !isGoSpace c)).isEmpty = false := by
  rw [matchAt_unfold] at h
  by_cases hp : List.isPrefixOf githubLit cs
  · rw [if_pos hp] at h
    obtain ⟨t, ht⟩ := (isPrefixOfE githubLit cs).mp hp
    have hdrop : cs.drop githubLit.length = t := by
      rw [ht]
      exact List.drop_left _ _
    rw [hdrop] at h
    by_cases he : (t.takeWhile (fun c => !isGoSpace c)).isEmpty
    · rw [if_pos he] at h
      simp at h
    · rw [if_neg he] at h
      have hpair := Option.some.inj h
      have h1 := congrArg Prod.fst hpair
      have h2 := congrArg Prod.snd hpair
      simp only at h1 h2
      exact ⟨t, ht, h1.symm, h2.symm, by simpa using he⟩
  · rw [if_neg hp] at h
    simp at h

theorem matchAt_some_iff (cs : List Char) :
    (matchAt cs).isSome = true
      ↔ ∃ d r2, cs = githubLit ++ d :: r2 ∧ isGoSpace d = false := by
  constructor
  · intro h
    obtain ⟨pr, hm⟩ := Option.isSome_iff_exists.mp h
    obtain ⟨m, rest⟩ := pr
    obtain ⟨t, ht, _, _, he⟩ := matchAt_eq_some cs m rest hm
    cases t with
    | nil => simp at he
    | cons d r2 =>
      by_cases hd : isGoSpace d
      · rw [List.takeWhile_cons] at he
        simp [hd] at he
      · exact ⟨d, r2, ht, by simpa using hd⟩
  · rintro ⟨d, r2, ht, hd⟩
    have hp : List.isPrefixOf githubLit cs = true :=
      (isPrefixOfE githubLit cs).mpr ⟨d :: r2, ht⟩
    have hdrop : cs.drop githubLit.length = d :: r2 := by
      rw [ht]
      exact List.drop_left _ _
    rw [matchAt_unfold, if_pos hp, hdrop, List.takeWhile_cons]
    simp [hd]

theorem specOccur_nil : ¬ SpecOccur ([] : List Char) := by
  rintro ⟨i, d, r2, h, _⟩
  have hlen := congrArg List.length h
  simp [githubLit_length] at hlen
  omega

theorem specOccur_cons (c : Char) (cs : List Char) :
    SpecOccur (c :: cs)
      ↔ (∃ d r2, c :: cs = githubLit ++ d :: r2 ∧ isGoSpace d = false) ∨ SpecOccur cs := by
  constructor
  · rintro ⟨i, d, r2, hdrop, hsp⟩
    cases i with
    | zero => exact Or.inl ⟨d, r2, by simpa using hdrop, hsp⟩
    | succ j => exact Or.inr ⟨j, d, r2, by simpa using hdrop, hsp⟩
  · rintro (⟨d, r2, heq, hsp⟩ | ⟨i, d, r2, hdrop, hsp⟩)
    · exact ⟨0, d, r2, by simpa using heq, hsp⟩
    · exact ⟨i + 1, d, r2, by simpa using hdrop, hsp⟩

theorem findAllF_shape : ∀ (fuel : Nat) (l m : List Char), m ∈ findAllF fuel l →
    ∃ run, m = githubLit ++ run ∧ run ≠ [] ∧ ∀ ch ∈ run, isGoSpace ch = false := by
  intro fuel
  induction fuel with
  | zero =>
    intro l m h
    simp [findAllF] at h
  | succ n ih =>
    intro l m h
    cases l with
    | nil => simp [findAllF] at h
    | cons c cs =>
      cases hm : matchAt (c :: cs) with
      | none =>
        rw [show findAllF (n + 1) (c :: cs) = findAllF n cs by simp [findAllF, hm]] at h
        exact ih cs m h
      | some pr =>
        obtain ⟨m0, rest⟩ := pr
        rw [show findAllF (n + 1) (c :: cs) = m0 :: findAllF n rest by
          simp [findAllF, hm]] at h
        rcases List.mem_cons.mp h with h0 | h1
        · obtain ⟨t, _, hm0, _, he⟩ := matchAt_eq_some (c :: cs) m0 rest hm
          refine ⟨t.takeWhile (fun ch => !isGoSpace ch), by rw [h0, hm0], ?_, ?_⟩
          · intro hnil
            rw [hnil] at he
            simp at he
          · intro ch hch
            have := List.mem_takeWhile_imp hch
            simpa using this
        · exact ih rest m h1

theorem findAllF_nil_iff : ∀ (fuel : Nat) (l : List Char), l.length ≤ fuel →
    (findAllF fuel l = [] ↔ ¬ SpecOccur l) := by
  intro fuel
  induction fuel with
  | zero =>
    intro l hl
    have hnil : l = [] := List.length_eq_zero.mp (Nat.le_zero.mp hl)
    subst hnil
    simp only [findAllF]
    exact ⟨fun _ => specOccur_nil, fun _ => trivial⟩
  | succ n ih =>
    intro l hl
    cases l with
    | nil =>
      simp only [findAllF]
      exact ⟨fun _ => specOccur_nil, fun _ => trivial⟩
    | cons c cs =>
      have hcs : cs.length ≤ n := by
        simp only [List.length_cons] at hl
        omega
      cases hm : matchAt (c :: cs) with
      | some pr =>
        obtain ⟨m0, rest⟩ := pr
        constructor
        · intro h
          rw [show findAllF (n + 1) (c :: cs) = m0 :: findAllF n rest by
            simp [findAllF, hm]] at h
          simp at h
        · intro hno
          exfalso
          apply hno
          have hs : (matchAt (c :: cs)).isSome = true := by rw [hm]; rfl
          obtain ⟨d, r2, heq, hd⟩ := (matchAt_some_iff (c :: cs)).mp hs
          exact ⟨0, d, r2, by simpa using heq, hd⟩
      | none =>
        rw [show findAllF (n + 1) (c :: cs) = findAllF n cs by simp [findAllF, hm],
          ih cs hcs, specOccur_cons]
        have hnot0 : ¬ ∃ d r2, c :: cs = githubLit ++ d :: r2 ∧ isGoSpace d = false := by
          intro hex
          have hsome := (matchAt_some_iff (c :: cs)).mpr hex
          rw [hm] at hsome
          simp at hsome
        constructor
        · intro hno
          rintro (h0 | hcs2)
          · exact hnot0 h0
          · exact hno hcs2
        · intro hno hcs2
          exact hno (Or.inr hcs2)

theorem getGithubRepos_shape (s r : String) (h : r ∈ getGithubRepos s) :
    ∃ run : List Char, r.data = githubLit ++ run ∧ run ≠ []
      ∧ ∀ ch ∈ run, isGoSpace ch = false := by
  rw [getGithubRepos, List.mem_map] at h
  obtain ⟨m, hmem, hmk⟩ := h
  obtain ⟨run, hshape, hne, hrun⟩ := findAllF_shape _ _ m hmem
  refine ⟨run, ?_, hne, hrun⟩
  rw [← hmk, hshape]

theorem take_length_takeWhile (q : Char → Bool) : ∀ l : List Char,
    l.take (l.takeWhile q).length = l.takeWhile q := by
  intro l
  induction l with
  | nil => rfl
  | cons a as ih =>
    by_cases hq : q a
    · rw [List.takeWhile_cons, if_pos hq, List.length_cons, List.take_succ_cons, ih]
    · rw [List.takeWhile_cons, if_neg hq]
      rfl

theorem drop_length_takeWhile (q : Char → Bool) : ∀ l : List Char,
    l.drop (l.takeWhile q).length = l.dropWhile q := by
  intro l
  induction l with
  | nil => rfl
  | cons a as ih =>
    by_cases hq : q a
    · rw [List.takeWhile_cons, if_pos hq, List.length_cons, List.drop_succ_cons, ih,
        List.dropWhile_cons, if_pos hq]
    · rw [List.takeWhile_cons, if_neg hq, List.dropWhile_cons, if_neg hq]
      rfl

theorem head?_dropWhile_false (q : Char → Bool) : ∀ (l : List Char) (c : Char),
    (l.dropWhile q).head? = some c → q c = false := by
  intro l
  induction l with
  | nil => intro c h; simp [List.dropWhile] at h
  | cons a as ih =>
    intro c h
    by_cases hq : q a
    · rw [List.dropWhile_cons, if_pos hq] at h
      exact ih c h
    · rw [List.dropWhile_cons, if_neg hq] at h
      simp only [List.head?_cons, Option.some.injEq] at h
      rw [← h]
      simpa using hq

theorem specMatchLen_nil : specMatchLen ([] : List Char) = none := rfl

theorem matchAt_eq_specMatchLen (t : List Char) :
    matchAt t = (specMatchLen t).map (fun len => (t.take len, t.drop len)) := by
  rw [matchAt_unfold]
  simp only [specMatchLen]
  by_cases hp : List.isPrefixOf githubLit t
  · rw [if_pos hp, if_pos hp]
    obtain ⟨u, hu⟩ := (isPrefixOfE githubLit t).mp hp
    have hdropu : t.drop githubLit.length = u := by
      rw [hu]
      exact List.drop_left _ _
    rw [hdropu]
    by_cases he : (u.takeWhile (fun c => !isGoSpace c)).length = 0
    · have hisE : (u.takeWhile (fun c => !isGoSpace c)).isEmpty = true := by
        rw [List.isEmpty_iff, ← List.length_eq_zero]
        exact he
      rw [if_pos hisE, if_pos he]
      rfl
    · have hisE : ¬ ((u.takeWhile (fun c => !isGoSpace c)).isEmpty = true) := by
        rw [List.isEmpty_iff, ← List.length_eq_zero]
        exact he
      rw [if_neg hisE, if_neg he]
      have h1 : t.take (githubLit.length + (u.takeWhile (fun c => !isGoSpace c)).length)
          = githubLit ++ u.takeWhile (fun c => !isGoSpace c) := by
        rw [hu, List.take_append, take_length_takeWhile]
      have h2 : t.drop (githubLit.length + (u.takeWhile (fun c => !isGoSpace c)).length)
          = u.dropWhile (fun c => !isGoSpace c) := by
        rw [hu, List.drop_append, drop_length_takeWhile]
      show some (githubLit ++ u.takeWhile (fun c => !isGoSpace c),
          u.dropWhile (fun c => !isGoSpace c))
        = some (t.take (githubLit.length + (u.takeWhile (fun c => !isGoSpace c)).length),
            t.drop (githubLit.length + (u.takeWhile (fun c => !isGoSpace c)).length))
      rw [h1, h2]
  · rw [if_neg hp, if_neg hp]
    rfl

theorem specMatchLen_pos (t : List Char) (len : Nat) (h : specMatchLen t = some len) :
    0 < len := by
  simp only [specMatchLen] at h
  by_cases hp : List.isPrefixOf githubLit t
  · rw [if_pos hp] at h
    by_cases he : ((t.drop githubLit.length).takeWhile (fun c => !isGoSpace c)).length = 0
    · rw [if_pos he] at h
      simp at h
    · rw [if_neg he] at h
      have hlen := Option.some.inj h
      rw [← hlen, githubLit_length]
      omega
  · rw [if_neg hp] at h
    simp at h

theorem specMatchLen_some_shape (t : List Char) (len : Nat) (h : specMatchLen t = some len) :
    ∃ run : List Char,
      t.take len = githubLit ++ run
        ∧ run = (t.drop githubLit.length).takeWhile (fun c => !isGoSpace c)
        ∧ run ≠ []
        ∧ (∀ ch ∈ run, isGoSpace ch = false)
        ∧ t.drop len = (t.drop githubLit.length).dropWhile (fun c => !isGoSpace c) := by
  simp only [specMatchLen] at h
  by_cases hp : List.isPrefixOf githubLit t
  · rw [if_pos hp] at h
    by_cases he : ((t.drop githubLit.length).takeWhile (fun c => !isGoSpace c)).length = 0
    · rw [if_pos he] at h
      simp at h
    · rw [if_neg he] at h
      have hlen := Option.some.inj h
      obtain ⟨u, hu⟩ := (isPrefixOfE githubLit t).mp hp
      have hdropu : t.drop githubLit.length = u := by
        rw [hu]
        exact List.drop_left _ _
      refine ⟨(t.drop githubLit.length).takeWhile (fun c => !isGoSpace c), ?_, rfl, ?_, ?_, ?_⟩
      · rw [← hlen, hdropu, hu, List.take_append, take_length_takeWhile]
      · intro hnil
        rw [hnil] at he
        simp at he
      · intro ch hch
        have hmem := List.mem_takeWhile_imp hch
        simpa using hmem
      · rw [← hlen, hdropu, hu, List.drop_append, drop_length_takeWhile]
  · rw [if_neg hp] at h
    simp at h

theorem findAllF_eq_scanPos : ∀ (fuel : Nat) (s : List Char) (p : Nat),
    findAllF fuel (s.drop p) = (scanPos fuel s p).map (fun pl => (s.drop pl.1).take pl.2) := by
  intro fuel
  induction fuel with
  | zero => intro s p; simp [findAllF, scanPos]
  | succ n ih =>
    intro s p
    cases hd : s.drop p with
    | nil =>
      have hlen : s.length ≤ p := List.drop_eq_nil_iff.mp hd
      have hm : specMatchLen (s.drop p) = none := by
        rw [hd]
        exact specMatchLen_nil
      have h1 : findAllF (n + 1) ([] : List Char) = [] := by simp [findAllF]
      have h2 : scanPos (n + 1) s p = [] := by
        simp [scanPos, hm, Nat.not_lt.mpr hlen]
      rw [h1, h2]
      rfl
    | cons c cs =>
      cases hm : specMatchLen (s.drop p) with
      | some len =>
        have hmatch : matchAt (s.drop p) = some ((s.drop p).take len, s.drop (p + len)) := by
          rw [matchAt_eq_specMatchLen, hm]
          have hdd : (s.drop p).drop len = s.drop (p + len) := List.drop_drop len p s
          show some ((s.drop p).take len, (s.drop p).drop len)
            = some ((s.drop p).take len, s.drop (p + len))
          rw [hdd]
        have hmatch2 : matchAt (c :: cs) = some ((s.drop p).take len, s.drop (p + len)) := by
          rw [← hd]
          exact hmatch
        have hL : findAllF (n + 1) (c :: cs)
            = ((s.drop p).take len) :: findAllF n (s.drop (p + len)) := by
          simp only [findAllF, hmatch2]
        have hR : scanPos (n + 1) s p = (p, len) :: scanPos n s (p + len) := by
          simp [scanPos, hm]
        rw [hL, hR, List.map_cons, ih s (p + len)]
      | none =>
        have hmatch2 : matchAt (c :: cs) = none := by
          rw [← hd, matchAt_eq_specMatchLen, hm]
          rfl
        have hplt : p < s.length := by
          by_contra hge
          rw [Nat.not_lt] at hge
          rw [List.drop_eq_nil_iff.mpr hge] at hd
          exact List.noConfusion hd
        have hnext : s.drop (p + 1) = cs := by
          have hstep : s.drop (p + 1) = (s.drop p).drop 1 := by
            rw [List.drop_drop]
          rw [hstep, hd]
          rfl
        have hL : findAllF (n + 1) (c :: cs) = findAllF n cs := by
          simp only [findAllF, hmatch2]
        have hR : scanPos (n + 1) s p = scanPos n s (p + 1) := by
          simp [scanPos, hm, hplt]
        rw [hL, hR, ← hnext]
        exact ih s (p + 1)

theorem scanPos_sound : ∀ (fuel : Nat) (s : List Char) (p : Nat) (pl : Nat × Nat),
    pl ∈ scanPos fuel s p → specMatchLen (s.drop pl.1) = some pl.2 := by
  intro fuel
  induction fuel with
  | zero => intro s p pl h; simp [scanPos] at h
  | succ n ih =>
    intro s p pl h
    cases hm : specMatchLen (s.drop p) with
    | some len =>
      rw [show scanPos (n + 1) s p = (p, len) :: scanPos n s (p + len) by
        simp [scanPos, hm]] at h
      rcases List.mem_cons.mp h with h0 | h1
      · rw [h0]
        exact hm
      · exact ih s (p + len) pl h1
    | none =>
      by_cases hp : p < s.length
      · rw [show scanPos (n + 1) s p = scanPos n s (p + 1) by simp [scanPos, hm, hp]] at h
        exact ih s (p + 1) pl h
      · rw [show scanPos (n + 1) s p = [] by simp [scanPos, hm, hp]] at h
        simp at h

theorem scanPos_ge : ∀ (fuel : Nat) (s : List Char) (p : Nat) (pl : Nat × Nat),
    pl ∈ scanPos fuel s p → p ≤ pl.1 := by
  intro fuel
  induction fuel with
  | zero => intro s p pl h; simp [scanPos] at h
  | succ n ih =>
    intro s p pl h
    cases hm : specMatchLen (s.drop p) with
    | some len =>
      rw [show scanPos (n + 1) s p = (p, len) :: scanPos n s (p + len) by
        simp [scanPos, hm]] at h
      rcases List.mem_cons.mp h with h0 | h1
      · rw [h0]
      · exact Nat.le_trans (Nat.le_add_right p len) (ih s (p + len) pl h1)
    | none =>
      by_cases hp : p < s.length
      · rw [show scanPos (n + 1) s p = scanPos n s (p + 1) by simp [scanPos, hm, hp]] at h
        exact Nat.le_trans (Nat.le_succ p) (ih s (p + 1) pl h)
      · rw [show scanPos (n + 1) s p = [] by simp [scanPos, hm, hp]] at h
        simp at h

theorem scanPos_chain : ∀ (fuel : Nat) (s : List Char) (p : Nat),
    List.Chain' (fun a b => a.1 + a.2 ≤ b.1) (scanPos fuel s p) := by
  intro fuel
  induction fuel with
  | zero => intro s p; simp [scanPos]
  | succ n ih =>
    intro s p
    cases hm : specMatchLen (s.drop p) with
    | some len =>
      rw [show scanPos (n + 1) s p = (p, len) :: scanPos n s (p + len) by
        simp [scanPos, hm]]
      rw [List.chain'_cons']
      refine ⟨?_, ih s (p + len)⟩
      intro b hb
      exact scanPos_ge n s (p + len) b (List.mem_of_mem_head? hb)
    | none =>
      by_cases hp : p < s.length
      · rw [show scanPos (n + 1) s p = scanPos n s (p + 1) by simp [scanPos, hm, hp]]
        exact ih s (p + 1)
      · rw [show scanPos (n + 1) s p = [] by simp [scanPos, hm, hp]]
        exact List.chain'_nil

theorem scanPos_complete : ∀ (fuel : Nat) (s : List Char) (p : Nat),
    s.length - p ≤ fuel → ∀ q : Nat, p ≤ q → (specMatchLen (s.drop q)).isSome = true →
      ∃ pl, pl ∈ scanPos fuel s p ∧ pl.1 ≤ q ∧ q < pl.1 + pl.2 := by
  intro fuel
  induction fuel with
  | zero =>
    intro s p hfuel q hpq hq
    have hnil : s.drop q = [] := List.drop_eq_nil_iff_le.mpr (by omega)
    rw [hnil, specMatchLen_nil] at hq
    simp at hq
  | succ n ih =>
    intro s p hfuel q hpq hq
    cases hm : specMatchLen (s.drop p) with
    | some len =>
      have hscan : scanPos (n + 1) s p = (p, len) :: scanPos n s (p + len) := by
        simp [scanPos, hm]
      by_cases hlt : q < p + len
      · exact ⟨(p, len), by rw [hscan]; exact List.mem_cons_self _ _, hpq, hlt⟩
      · rw [Nat.not_lt] at hlt
        have hpos := specMatchLen_pos (s.drop p) len hm
        obtain ⟨pl, hmem, hA, hB⟩ := ih s (p + len) (by omega) q hlt hq
        exact ⟨pl, by rw [hscan]; exact List.mem_cons_of_mem _ hmem, hA, hB⟩
    | none =>
      by_cases hp : p < s.length
      · have hscan : scanPos (n + 1) s p = scanPos n s (p + 1) := by
          simp [scanPos, hm, hp]
        have hqp : ¬ q = p := by
          intro he
          rw [he, hm] at hq
          simp at hq
        obtain ⟨pl, hmem, hA, hB⟩ := ih s (p + 1) (by omega) q (by omega) hq
        exact ⟨pl, by rw [hscan]; exact hmem, hA, hB⟩
      · rw [Nat.not_lt] at hp
        have hnil : s.drop q = [] := List.drop_eq_nil_iff_le.mpr (by omega)
        rw [hnil, specMatchLen_nil] at hq
        simp at hq

theorem occursAt_iff_isSome (s : List Char) (q : Nat) :
    OccursAt s q ↔ (specMatchLen (s.drop q)).isSome = true := by
  have hmap := matchAt_eq_specMatchLen (s.drop q)
  constructor
  · rintro ⟨c, rest, heq, hsp⟩
    have hms : (matchAt (s.drop q)).isSome = true :=
      (matchAt_some_iff (s.drop q)).mpr ⟨c, rest, heq, hsp⟩
    rw [hmap] at hms
    cases hval : specMatchLen (s.drop q) with
    | none => rw [hval] at hms; simp at hms
    | some len => rfl
  · intro h
    obtain ⟨len, hlen⟩ := Option.isSome_iff_exists.mp h
    have hmat : matchAt (s.drop q) = some ((s.drop q).take len, (s.drop q).drop len) := by
      rw [hmap, hlen]
      rfl
    have hms : (matchAt (s.drop q)).isSome = true := by rw [hmat]; rfl
    exact (matchAt_some_iff (s.drop q)).mp hms

/-- C6: the extractor returns exactly the substrings the position scan
reports, in left-to-right order; every reported substring begins with
the literal and continues through the whole nonempty run of
non-whitespace characters there (the character after it, if any, is
whitespace); reported matches do not overlap and come in increasing
position order; every position where such a substring begins falls
inside a reported match (none is missed, overlaps are not re-reported);
the result is empty exactly when no such substring occurs; and the
representative line yields exactly its two references in order. -/
theorem c6_getGithubRepos_extraction :
    (∀ s : String, getGithubRepos s
        = (scanPos s.data.length s.data 0).map
            (fun pl => String.mk ((s.data.drop pl.1).take pl.2)))
      ∧ (∀ (fuel : Nat) (s : List Char) (p : Nat) (pl : Nat × Nat), pl ∈ scanPos fuel s p →
          ∃ run : List Char,
            (s.drop pl.1).take pl.2 = githubLit ++ run
              ∧ run = (s.drop (pl.1 + githubLit.length)).takeWhile (fun c => !isGoSpace c)
              ∧ run ≠ []
              ∧ (∀ ch ∈ run, isGoSpace ch = false)
              ∧ ∀ c, (s.drop (pl.1 + pl.2)).head? = some c → isGoSpace c = true)
      ∧ (∀ (fuel : Nat) (s : List Char) (p : Nat),
          List.Chain' (fun a b => a.1 + a.2 ≤ b.1) (scanPos fuel s p))
      ∧ (∀ (s : List Char) (q : Nat), OccursAt s q →
          ∃ pl, pl ∈ scanPos s.length s 0 ∧ pl.1 ≤ q ∧ q < pl.1 + pl.2)
      ∧ (∀ s : String, getGithubRepos s = [] ↔ ¬ SpecOccur s.data)
      ∧ getGithubRepos "see github.com/foo/bar and github.com/baz/qux more text"
          = ["github.com/foo/bar", "github.com/baz/qux"] := by
  refine ⟨?_, ?_, scanPos_chain, ?_, ?_, rfl⟩
  · intro s
    have h := findAllF_eq_scanPos s.data.length s.data 0
    rw [List.drop_zero] at h
    rw [getGithubRepos, findAll, h, List.map_map]
    rfl
  · intro fuel s p pl hmem
    have hsound := scanPos_sound fuel s p pl hmem
    obtain ⟨run, h1, h2, h3, h4, h5⟩ := specMatchLen_some_shape (s.drop pl.1) pl.2 hsound
    refine ⟨run, h1, ?_, h3, h4, ?_⟩
    · rw [h2, List.drop_drop]
    · intro c hc
      have hdd : s.drop (pl.1 + pl.2)
          = ((s.drop pl.1).drop githubLit.length).dropWhile (fun ch => !isGoSpace ch) := by
        rw [← h5, List.drop_drop]
      rw [hdd] at hc
      have hfalse := head?_dropWhile_false (fun ch => !isGoSpace ch) _ c hc
      simpa using hfalse
  · intro s q hocc
    have hq := (occursAt_iff_isSome s q).mp hocc
    exact scanPos_complete s.length s 0 (by omega) q (Nat.zero_le q) hq
  · intro s
    rw [getGithubRepos, List.map_eq_nil_iff, findAll]
    exact findAllF_nil_iff s.data.length s.data (le_refl _)

/-- Witness instantiating c6_getGithubRepos_extraction at a concrete
line, a concrete reported match and a concrete occurrence position. -/
theorem c6_getGithubRepos_extraction_witness :
    ((2, 12) ∈ scanPos 14 ("x github.com/a" : String).data 0)
      ∧ (∃ run : List Char,
          (("x github.com/a" : String).data.drop 2).take 12 = githubLit ++ run
            ∧ run = (("x github.com/a" : String).data.drop (2 + githubLit.length)).takeWhile
                (fun c => !isGoSpace c)
            ∧ run ≠ []
            ∧ (∀ ch ∈ run, isGoSpace ch = false)
            ∧ ∀ c, (("x github.com/a" : String).data.drop (2 + 12)).head? = some c →
                isGoSpace c = true)
      ∧ OccursAt ("x github.com/a" : String).data 2
      ∧ ∃ pl, pl ∈ scanPos ("x github.com/a" : String).data.length
            ("x github.com/a" : String).data 0
          ∧ pl.1 ≤ 2 ∧ 2 < pl.1 + pl.2 := by
  have hmem : (2, 12) ∈ scanPos 14 ("x github.com/a" : String).data 0 := by decide
  have hocc : OccursAt ("x github.com/a" : String).data 2 :=
    ⟨'/', ['a'], by decide, by decide⟩
  exact ⟨hmem, c6_getGithubRepos_extraction.2.1 14 _ 0 (2, 12) hmem, hocc,
    c6_getGithubRepos_extraction.2.2.2.1 _ 2 hocc⟩

/-- C9: every reference the extractor returns is at least as long as
the fixed prefix sliced off in getGithubLicense, so the slice
expression is within bounds. -/
theorem c9_extracted_length (s r : String) (h : r ∈ getGithubRepos s) :
    ("github.com/" : String).length ≤ r.length
      ∧ goSliceFromInBounds r ("github.com/" : String).length := by
  obtain ⟨run, hdata, hne, _⟩ := getGithubRepos_shape s r h
  have hlen : r.length = githubLit.length + run.length := by
    show r.data.length = githubLit.length + run.length
    rw [hdata, List.length_append]
  have hrun : 1 ≤ run.length := by
    cases run with
    | nil => exact absurd rfl hne
    | cons a as => simp
  have h11 : ("github.com/" : String).length = 11 := rfl
  have hfin : ("github.com/" : String).length ≤ r.length := by
    rw [h11, hlen, githubLit_length]
    omega
  exact ⟨hfin, hfin⟩

/-- Witness instantiating c9_extracted_length at a concrete line. -/
theorem c9_extracted_length_witness :
    ("github.com/a" ∈ getGithubRepos "github.com/a")
      ∧ ("github.com/" : String).length ≤ ("github.com/a" : String).length :=
  ⟨by decide, (c9_extracted_length "github.com/a" "github.com/a" (by decide)).1⟩

/-- C2: evaluation of the File Scanner at a reference whose lookup
fails. The error is logged, but the reference is not skipped: the scan
stores the zero-valued License (empty key, name and url) with the
failed reference in its repository list, so the failed reference does
contribute an entry to the resulting index. -/
theorem c2_failed_lookup_stores_zero :
    (getLicensesFromFile badResolver "deps.txt" (some ["github.com/x/y"])).2
        = [(License.zero, ["github.com/x/y"])]
      ∧ (getLicensesFromFile badResolver "deps.txt" (some ["github.com/x/y"])).1
        = [Log.lookupErr "network unreachable"]
      ∧ idxHasKey
          (some (getLicensesFromFile badResolver "deps.txt" (some ["github.com/x/y"])).2)
          License.zero = true :=
  ⟨rfl, rfl, rfl⟩

/-- C7: for a reference carrying the fixed prefix, getGithubLicense
issues exactly one request, a GET, whose URL is the base URL followed
by /repos/ and the owner-project segment left after stripping that
prefix. -/
theorem c7_getGithubLicense_request (doRequest : HTTPRequest → Except String License)
    (authToken rest : String) :
    (getGithubLicense doRequest authToken ("github.com/" ++ rest)).1
        = [getGithubLicenseRequest authToken ("github.com/" ++ rest)]
      ∧ (getGithubLicenseRequest authToken ("github.com/" ++ rest)).method = "GET"
      ∧ (getGithubLicenseRequest authToken ("github.com/" ++ rest)).url
          = githubAPIURL ++ "/repos/" ++ rest := by
  refine ⟨rfl, rfl, ?_⟩
  show githubAPIURL ++ "/repos/"
      ++ String.mk (("github.com/" ++ rest).data.drop ("github.com/" : String).length)
    = githubAPIURL ++ "/repos/" ++ rest
  congr 1


theorem foldl_preserve {α β : Type} (P : β → Prop) (f : β → α → β)
    (hf : ∀ b a, P b → P (f b a)) : ∀ (l : List α) (b : β), P b → P (l.foldl f b) := by
  intro l
  induction l with
  | nil => intro b hb; exact hb
  | cons x xs ih =>
    intro b hb
    exact ih (f b x) (hf b x hb)

theorem nodupKeys_scanRepoStep (resolve : Resolver) (acc2 : List Log × GoMap)
    (repo : String) (h : NodupKeys acc2.2) : NodupKeys (scanRepoStep resolve acc2 repo).2 := by
  rw [scanRepoStep]
  cases resolve repo with
  | ok license => exact nodupKeys_mapSet _ _ _ h
  | error e => exact nodupKeys_mapSet _ _ _ h

theorem nodupKeys_scanLineStep (resolve : Resolver) (acc : List Log × GoMap)
    (rawLine : String) (h : NodupKeys acc.2) : NodupKeys (scanLineStep resolve acc rawLine).2 :=
  foldl_preserve (fun b => NodupKeys b.2) (scanRepoStep resolve)
    (nodupKeys_scanRepoStep resolve) _ acc h

theorem nodupKeys_getLicensesFromFile (resolve : Resolver) (path : String)
    (contents : Option (List String)) : NodupKeys (getLicensesFromFile resolve path contents).2 := by
  show NodupKeys ((contents.getD []).foldl (scanLineStep resolve) ([], [])).2
  refine foldl_preserve (fun b => NodupKeys b.2) (scanLineStep resolve)
    (nodupKeys_scanLineStep resolve) _ ([], []) ?_
  show (([] : GoMap).map Prod.fst).Nodup
  exact List.nodup_nil

theorem getLicenses_nodupKeys (resolve : Resolver) (path : String) (e : FSEntry) :
    IdxNodupKeys (getLicenses resolve path e).2 := by
  refine getLicenses.induct resolve
    (fun path e => IdxNodupKeys (getLicenses resolve path e).2)
    (fun path children => IdxNodupKeys (getLicensesFromDir resolve path children).2)
    (fun path children acc =>
      IdxNodupKeys acc → IdxNodupKeys (walkChildren resolve path children acc).2)
    ?_ ?_ ?_ ?_ ?_ ?_ ?_ path e
  · intro p
    exact trivial
  · intro p contents
    exact nodupKeys_getLicensesFromFile resolve p contents
  · intro p children h2
    exact idx_merge_nodupKeys none _ trivial h2
  · intro p
    exact trivial
  · intro p children h3
    exact h3 trivial
  · intro p acc hacc
    exact hacc
  · intro p child rest acc one ih1 ih3 hacc
    exact ih3 (idx_merge_nodupKeys acc _ hacc ih1)

theorem contentEquiv_refl (x : LicenseIndex) : contentEquiv x x :=
  fun _ => ⟨rfl, fun _ => Iff.rfl⟩

theorem contentEquiv_merge_left (x y z : LicenseIndex) (hz : IdxNodupKeys z)
    (h : contentEquiv x y) : contentEquiv (mergeMaps x z) (mergeMaps y z) := by
  intro L
  constructor
  · rw [idx_merge_hasKey x z hz L, idx_merge_hasKey y z hz L, (h L).1]
  · intro s
    rw [idx_merge_mem x z hz L s, idx_merge_mem y z hz L s]
    have hiff := (h L).2 s
    tauto

theorem contentEquiv_merge_none (x : LicenseIndex) : contentEquiv (mergeMaps x none) x := by
  cases x with
  | none =>
    intro L
    exact ⟨rfl, fun s => Iff.rfl⟩
  | some m => exact contentEquiv_refl (some m)

theorem mainLoop_fold_congr (resolve : Resolver) :
    ∀ (args : List (String × FSEntry)) (x y : LicenseIndex), contentEquiv x y →
      contentEquiv (args.foldl (mainStep resolve) x) (args.foldl (mainStep resolve) y) := by
  intro args
  induction args with
  | nil => intro x y h; exact h
  | cons a rest ih =>
    intro x y h
    rw [List.foldl_cons, List.foldl_cons]
    exact ih (mainStep resolve x a) (mainStep resolve y a)
      (contentEquiv_merge_left x y _ (getLicenses_nodupKeys resolve a.1 a.2) h)

/-- C8: a stat failure makes the Tree Walker log the error and return
the nil index, which holds no licenses; a directory-listing failure
makes it log the error and return an index holding no licenses; and
both failures are non-fatal: an argument whose stat fails contributes
nothing, and the aggregate built by the loop of main over the other
arguments has the same content as if the failing path were absent. -/
theorem c8_walker_failures :
    (∀ (resolve : Resolver) (path : String),
        getLicenses resolve path FSEntry.statError = ([Log.statErr path], none)
          ∧ ∀ L, idxHasKey (getLicenses resolve path FSEntry.statError).2 L = false)
      ∧ (∀ (resolve : Resolver) (path : String),
          getLicensesFromDir resolve path none = ([Log.readDirErr path], none)
            ∧ getLicenses resolve path (FSEntry.dir none) = ([Log.readDirErr path], emptyIndex)
            ∧ ∀ L, idxHasKey (getLicenses resolve path (FSEntry.dir none)).2 L = false)
      ∧ (∀ (resolve : Resolver) (args1 args2 : List (String × FSEntry)) (p : String),
          contentEquiv (mainLoop resolve (args1 ++ (p, FSEntry.statError) :: args2))
            (mainLoop resolve (args1 ++ args2))) := by
  refine ⟨?_, ?_, ?_⟩
  · intro resolve path
    exact ⟨rfl, fun L => rfl⟩
  · intro resolve path
    exact ⟨rfl, rfl, fun L => rfl⟩
  · intro resolve args1 args2 p
    rw [mainLoop, mainLoop, List.foldl_append, List.foldl_append, List.foldl_cons]
    have hstep : mainStep resolve (args1.foldl (mainStep resolve) none) (p, FSEntry.statError)
        = mergeMaps (args1.foldl (mainStep resolve) none) none := rfl
    rw [hstep]
    exact mainLoop_fold_congr resolve args2 _ _
      (contentEquiv_merge_none (args1.foldl (mainStep resolve) none))

theorem heapGet_heapSet_ne (h : MapHeap) (r1 r2 : Nat) (m : GoMap) (hne : r1 ≠ r2) :
    heapGet (heapSet h r1 m) r2 = heapGet h r2 := by
  rw [heapGet, heapSet, heapGet, List.getD_eq_getElem?_getD, List.getD_eq_getElem?_getD,
    List.getElem?_set_ne hne]

theorem heapGet_append_left (h : MapHeap) (m : GoMap) (r : Nat) (hr : r < h.length) :
    heapGet (h ++ [m]) r = heapGet h r := by
  rw [heapGet, heapGet, List.getD_eq_getElem?_getD, List.getD_eq_getElem?_getD,
    List.getElem?_append_left hr]

theorem copyStep_get_ne (rm : Nat) (hh : MapHeap) (kv : License × RepoList) (r : Nat)
    (hne : rm ≠ r) : heapGet (copyStep rm hh kv) r = heapGet hh r := by
  rw [copyStep, heapGet_heapSet_ne hh rm r _ hne]

theorem mergeStepRef_get_ne (rm : Nat) (hh : MapHeap) (kv : License × RepoList) (r : Nat)
    (hne : rm ≠ r) : heapGet (mergeStepRef rm hh kv) r = heapGet hh r := by
  rw [mergeStepRef]
  split
  · exact heapGet_heapSet_ne hh rm r _ hne
  · exact heapGet_heapSet_ne hh rm r _ hne

theorem foldl_copyStep_get_ne (rm r : Nat) (hne : rm ≠ r) :
    ∀ (l : GoMap) (hh : MapHeap), heapGet (l.foldl (copyStep rm) hh) r = heapGet hh r := by
  intro l
  induction l with
  | nil => intro hh; rfl
  | cons kv rest ih =>
    intro hh
    rw [List.foldl_cons, ih (copyStep rm hh kv), copyStep_get_ne rm hh kv r hne]

theorem foldl_mergeStepRef_get_ne (rm r : Nat) (hne : rm ≠ r) :
    ∀ (l : GoMap) (hh : MapHeap), heapGet (l.foldl (mergeStepRef rm) hh) r = heapGet hh r := by
  intro l
  induction l with
  | nil => intro hh; rfl
  | cons kv rest ih =>
    intro hh
    rw [List.foldl_cons, ih (mergeStepRef rm hh kv), mergeStepRef_get_ne rm hh kv r hne]

/-- C10: mergeMaps never mutates its non-nil arguments: after the call
the heap still holds, at both argument references, exactly the maps it
held before, with every repository list element-for-element in the same
order, and the result is a freshly allocated reference distinct from
both arguments. -/
theorem c10_mergeMaps_no_mutation (h : MapHeap) (ra rb : Nat)
    (hra : ra < h.length) (hrb : rb < h.length) :
    heapGet (mergeMapsRef h (some ra) (some rb)).1 ra = heapGet h ra
      ∧ heapGet (mergeMapsRef h (some ra) (some rb)).1 rb = heapGet h rb
      ∧ (mergeMapsRef h (some ra) (some rb)).2 = some h.length
      ∧ ra ≠ h.length ∧ rb ≠ h.length := by
  have hne_a : h.length ≠ ra := fun he => absurd (he ▸ hra) (lt_irrefl _)
  have hne_b : h.length ≠ rb := fun he => absurd (he ▸ hrb) (lt_irrefl _)
  have hres : mergeMapsRef h (some ra) (some rb)
      = ((heapGet ((heapGet (h ++ [[]]) ra).foldl (copyStep h.length) (h ++ [[]])) rb).foldl
          (mergeStepRef h.length)
          ((heapGet (h ++ [[]]) ra).foldl (copyStep h.length) (h ++ [[]])),
        some h.length) := rfl
  rw [hres]
  refine ⟨?_, ?_, rfl, fun he => hne_a he.symm, fun he => hne_b he.symm⟩
  · rw [foldl_mergeStepRef_get_ne h.length ra hne_a, foldl_copyStep_get_ne h.length ra hne_a,
      heapGet_append_left h [] ra hra]
  · rw [foldl_mergeStepRef_get_ne h.length rb hne_b, foldl_copyStep_get_ne h.length rb hne_b,
      heapGet_append_left h [] rb hrb]

/-- Witness instantiating c10_mergeMaps_no_mutation on a concrete heap
holding two one-entry maps. -/
theorem c10_mergeMaps_no_mutation_witness :
    0 < ([sampleMapA, sampleMapB] : MapHeap).length
      ∧ 1 < ([sampleMapA, sampleMapB] : MapHeap).length
      ∧ heapGet (mergeMapsRef [sampleMapA, sampleMapB] (some 0) (some 1)).1 0
          = heapGet [sampleMapA, sampleMapB] 0
      ∧ heapGet (mergeMapsRef [sampleMapA, sampleMapB] (some 0) (some 1)).1 1
          = heapGet [sampleMapA, sampleMapB] 1 := by
  have hmain := c10_mergeMaps_no_mutation [sampleMapA, sampleMapB] 0 1
    (by decide) (by decide)
  exact ⟨by decide, by decide, hmain.1, hmain.2.1⟩
